import Mathlib

/-!
Verification of the selector-based object-tree search component
(`squape/object_tree.py` of squish-api-python-extension).

The Python module walks a hierarchy of UI objects exposed by the Squish
engine.  The shallow embedding below mirrors it as follows:

* A UI object is a `PNode`: an identity (`nid`, modelling the identity of
  the underlying AUT object that a Squish object reference points to),
  the runtime class name reported by `squish.className`, a property bag
  (`hasattr`/`getattr` become an association-list lookup) and the child
  sequence returned by `object.children`.  Children are a `PForest`
  (an inlined list, so that all recursions are structural).
* Python values that occur in selectors and properties are `Value`;
  `pyEq` is Python `==` on them (note `True == 1` in Python, hence the
  numeric cases).  `Value.vCallable` stands for a callable object that is
  NOT a plain function (an instance with `__call__`, a built-in, a
  `functools.partial`): `isinstance(x, types.FunctionType)` is false for
  those, so `_is_matching` compares them by equality instead of calling
  them.
* A selector value is a `SelVal`: `SelVal.func f` models a value for
  which `isinstance(value, types.FunctionType)` holds (a plain function
  or lambda, of type `Value → Value` because Python functions may return
  anything); `SelVal.lit v` models every other value.
* Raised exceptions are modelled with `Except Err`:
  `Err.lambdaNonBool key result` is the `RuntimeError` raised by
  `_is_matching` when a predicate returns a non-boolean (it carries the
  offending key and the bad return value, from which the bad type is
  recovered by the `Value` constructor), `Err.lookupFailed` a failed
  `squish.waitForObjectExists` lookup, `Err.valueNotInList` the
  `ValueError` of `list.remove`.
* `object_or_name` arguments are `ObjOrName`: either an object reference
  (returned unchanged by `_get_object_reference`) or a symbolic name
  together with the outcome of resolving it.
* `max_depth` is a `Depth`: `Depth.inf` is `math.inf` (the substitute for
  `None`), `Depth.fin d` an integer depth; `depthNonpos` is the Python
  test `max_depth <= 0` and `depthPred` is `max_depth - 1`.
-/

/-- Python values occurring as object properties and selector literals. -/
inductive Value where
  | vNone
  | vBool (b : Bool)
  | vInt (n : Int)
  | vStr (s : String)
  | vCallable (cid : Nat)
  deriving DecidableEq

/-- Python `==` on `Value`: numeric values compare across `bool`/`int`
(in Python `True == 1`), all other comparisons are per-type, and
distinct callable objects are never equal. -/
def pyEq (a b : Value) : Bool :=
  match a, b with
  | .vBool x, .vBool y => x == y
  | .vBool x, .vInt y => (if x then (1 : Int) else 0) == y
  | .vInt x, .vBool y => x == (if y then (1 : Int) else 0)
  | .vInt x, .vInt y => x == y
  | .vStr x, .vStr y => x == y
  | .vCallable x, .vCallable y => x == y
  | .vNone, .vNone => true
  | _, _ => false

mutual
/-- A UI object: underlying identity, `squish.className`, property bag,
and the children returned by `object.children`. -/
inductive PNode where
  | node (nid : Nat) (className : String) (props : List (String × Value))
      (kids : PForest)

/-- The child sequence of a `PNode` (a list, inlined so that recursion
over the tree is structural). -/
inductive PForest where
  | nil
  | cons (hd : PNode) (tl : PForest)
end

/-- The identity of the underlying AUT object. -/
def PNode.nid : PNode → Nat
  | .node i _ _ _ => i

/-- The runtime class name reported by `squish.className`. -/
def PNode.className : PNode → String
  | .node _ c _ _ => c

/-- The property bag of the object. -/
def PNode.props : PNode → List (String × Value)
  | .node _ _ p _ => p

/-- The children of the object, as returned by `object.children`. -/
def PNode.kids : PNode → PForest
  | .node _ _ _ k => k

/-- View a `PForest` as a list. -/
def PForest.toList : PForest → List PNode
  | .nil => []
  | .cons h t => h :: t.toList

mutual
def PNode.deq : (a b : PNode) → Decidable (a = b)
  | .node i c p k, .node i' c' p' k' =>
    match PForest.deq k k' with
    | isTrue hk =>
      if h : i = i' ∧ c = c' ∧ p = p' then
        isTrue (by rw [h.1, h.2.1, h.2.2, hk])
      else
        isFalse (by
          intro he
          injection he with h1 h2 h3 h4
          exact h ⟨h1, h2, h3⟩)
    | isFalse hk =>
      isFalse (by
        intro he
        injection he with h1 h2 h3 h4
        exact hk h4)
def PForest.deq : (a b : PForest) → Decidable (a = b)
  | .nil, .nil => isTrue rfl
  | .nil, .cons _ _ => isFalse (fun h => PForest.noConfusion h)
  | .cons _ _, .nil => isFalse (fun h => PForest.noConfusion h)
  | .cons h t, .cons h' t' =>
    match PNode.deq h h', PForest.deq t t' with
    | isTrue h1, isTrue h2 => isTrue (by rw [h1, h2])
    | isFalse h1, _ =>
      isFalse (by
        intro he
        injection he with ha hb
        exact h1 ha)
    | _, isFalse h2 =>
      isFalse (by
        intro he
        injection he with ha hb
        exact h2 hb)
end

instance : DecidableEq PNode := PNode.deq

instance : DecidableEq PForest := PForest.deq

instance {ε α : Type} [DecidableEq ε] [DecidableEq α] : DecidableEq (Except ε α) :=
  fun a b =>
    match a, b with
    | .ok x, .ok y => decidable_of_iff (x = y) (by simp)
    | .error x, .error y => decidable_of_iff (x = y) (by simp)
    | .ok _, .error _ => isFalse (by simp)
    | .error _, .ok _ => isFalse (by simp)

/-- All positions (left to right) at which `pat` occurs in `s`. -/
def occPositions (s pat : List Char) : List Nat :=
  (List.range (s.length + 1)).filter (fun i => pat.isPrefixOf (s.drop i))

/-- Python `s.rsplit(pat, 1)[0]`: everything before the LAST occurrence of
`pat` in `s`, or `s` itself when `pat` does not occur. -/
def pyRsplit1Head (s pat : String) : String :=
  match (occPositions s.toList pat.toList).getLast? with
  | none => s
  | some i => String.mk (s.toList.take i)

/-- The class-name normalisation of `_is_matching` (line 233):
`squish.className(object_reference).rsplit("_QMLTYPE_", 1)[0]`. -/
def stripQmlType (c : String) : String := pyRsplit1Head c "_QMLTYPE_"

/-- Follows the spec's words, for comparison with `stripQmlType` only:
"strip the generated suffix using the FIRST occurrence of the separator
token", i.e. everything before the first occurrence of `_QMLTYPE_`. -/
def stripQmlTypeFirstOcc (c : String) : String :=
  match (occPositions c.toList "_QMLTYPE_".toList).head? with
  | none => c
  | some i => String.mk (c.toList.take i)

/-- A selector value: `func` is a value for which
`isinstance(value, types.FunctionType)` holds, `lit` any other value. -/
inductive SelVal where
  | lit (v : Value)
  | func (f : Value → Value)

/-- A selector: the key/value pairs of the Python dict, in insertion
order (Python dicts iterate in insertion order). -/
abbrev Selector := List (String × SelVal)

/-- Exceptions raised by the embedded code. -/
inductive Err where
  | lambdaNonBool (key : String) (result : Value)
  | lookupFailed
  | valueNotInList
  deriving DecidableEq

/-- `getattr`/`hasattr` on the property bag: `none` models
`hasattr(object_reference, key) == False`. -/
def lookupProp (n : PNode) (key : String) : Option Value :=
  n.props.lookup key

/-- The `for key, expected_value in selector.items()` loop of
`_is_matching` (lines 230-257): type keys are resolved through
`squish.className` and suffix-stripped; missing properties are a
non-match; `types.FunctionType` values are invoked and must return a
boolean (otherwise the `RuntimeError` of lines 247-251, modelled as
`Err.lambdaNonBool`); any other value is compared with `==`. -/
def matchPairs (n : PNode) : List (String × SelVal) → Except Err Bool
  | [] => .ok true
  | (key, expected) :: rest =>
    if key = "type" then
      match expected with
      | .lit v =>
        if pyEq (.vStr (stripQmlType n.className)) v then matchPairs n rest
        else .ok false
      | .func _ => .ok false
    else
      match lookupProp n key with
      | none => .ok false
      | some attr =>
        match expected with
        | .func f =>
          match f attr with
          | .vBool b => if b then matchPairs n rest else .ok false
          | r => .error (.lambdaNonBool key r)
        | .lit v => if pyEq attr v then matchPairs n rest else .ok false

/-- `_is_matching` (lines 207-257): the `selector == {}` early exit,
then the key/value loop, `True` if every pair passed. -/
def isMatching (n : PNode) (sel : Selector) : Except Err Bool :=
  if sel.isEmpty then .ok true else matchPairs n sel

/-- The `max_depth` value after the `None → math.inf` normalisation of
line 98-99: `math.inf` or an integer. -/
inductive Depth where
  | inf
  | fin (d : Int)
  deriving DecidableEq

/-- The Python test `max_depth <= 0` (line 100). -/
def depthNonpos : Depth → Bool
  | .inf => false
  | .fin d => d ≤ 0

/-- The Python expression `max_depth - 1` (line 111); `math.inf - 1`
is `math.inf`. -/
def depthPred : Depth → Depth
  | .inf => .inf
  | .fin d => .fin (d - 1)

/-- An `object_or_name` argument: an already-resolved object reference,
or a symbolic name (a dict) together with the outcome of
`squish.waitForObjectExists` on it (`none` when the lookup fails). -/
inductive ObjOrName where
  | ref (n : PNode)
  | symbolic (res : Option PNode)

/-- `_get_object_reference` (lines 260-273): references pass through
unchanged, symbolic names are resolved, a failed lookup raises. -/
def getObjectReference : ObjOrName → Except Err PNode
  | .ref n => .ok n
  | .symbolic (some n) => .ok n
  | .symbolic none => .error .lookupFailed

mutual
/-- The recursive core of `find` (lines 100-113), entered by the
recursive call `find(child, selector, max_depth - 1)` of line 111: at
that point the argument is always an object reference (so
`_get_object_reference` is the identity) and the selector is never
`None`. -/
def findRec : PNode → Selector → Depth → Except Err (List PNode)
  | .node _ _ _ kids, sel, d =>
    if depthNonpos d then .ok []
    else findKids kids sel d

/-- The `for child in object.children(object_reference)` loop of
lines 108-111: each matching child is appended, followed by the
recursive results for that child, in order. -/
def findKids : PForest → Selector → Depth → Except Err (List PNode)
  | .nil, _, _ => .ok []
  | .cons c rest, sel, d => do
    let m ← isMatching c sel
    let sub ← findRec c sel (depthPred d)
    let tail ← findKids rest sel d
    .ok ((if m then [c] else []) ++ sub ++ tail)
end

/-- `find` (lines 56-113) as called from the outside: `max_depth = None`
becomes `math.inf` (line 98-99), a non-positive depth returns the empty
tuple before the selector default and before the reference is resolved
(lines 100-101), then `selector = None` becomes `{}` (lines 102-103),
the reference is resolved (line 105) and the children loop runs. -/
def find (x : ObjOrName) (sel : Option Selector) (maxDepth : Option Int) :
    Except Err (List PNode) :=
  let d := match maxDepth with
    | none => Depth.inf
    | some k => Depth.fin k
  if depthNonpos d then .ok []
  else do
    let s := match sel with
      | none => ([] : List (String × SelVal))
      | some s => s
    let n ← getObjectReference x
    findKids n.kids s d

/-- `find_ancestor` (lines 116-159).  `object.parent` is modelled by the
ancestor chain of the starting node, nearest parent first; the empty
chain models `object.parent(object_reference) is None`.  The code
returns the parent when `_is_matching(parent, selector)` holds and
otherwise recurses from the parent (whose ancestor chain is the tail). -/
def find_ancestor (ancestors : List PNode) (sel : Selector) :
    Except Err (Option PNode) :=
  match ancestors with
  | [] => .ok none
  | p :: rest => do
    let m ← isMatching p sel
    if m then .ok (some p) else find_ancestor rest sel

/-- Python `==` between two Squish object references: they compare equal
exactly when they refer to the same underlying AUT object (modelled by
`nid`).  Property values play no role in reference comparison.  The code
depends on this: `siblings.remove(object_reference)` (line 203) must
match the caller's reference against the fresh references produced by
`object.children(parent)`, which are distinct Python wrapper objects. -/
def refEq (a b : PNode) : Bool := a.nid == b.nid

/-- Python `list.remove(x)` (line 203): removes the first element that
compares `==` to `x`; `none` models the `ValueError` raised when no
element does. -/
def removeFirst (x : PNode) : List PNode → Option (List PNode)
  | [] => none
  | c :: rest =>
    if refEq c x then some rest else (removeFirst x rest).map (c :: ·)

/-- `tuple(filter(lambda x: _is_matching(x, selector), siblings))`
(line 204): keeps the elements for which the matcher returns true,
propagating the first exception the matcher raises. -/
def filterMatching (sel : Selector) : List PNode → Except Err (List PNode)
  | [] => .ok []
  | c :: rest => do
    let m ← isMatching c sel
    let tail ← filterMatching sel rest
    .ok (if m then c :: tail else tail)

/-- `siblings` (lines 162-204).  `object.parent(object_reference)` is
modelled by the `parent` argument; `none` makes the function return
Python `None` (modelled as `Option.none` in the result).  Otherwise the
parent's children are listed, the starting node is removed with
`list.remove`, and the rest are filtered through the selector. -/
def siblings (node : PNode) (parent : Option PNode) (sel : Selector) :
    Except Err (Option (List PNode)) :=
  match parent with
  | none => .ok none
  | some par =>
    match removeFirst node par.kids.toList with
    | none => .error .valueNotInList
    | some sibs => do
      let r ← filterMatching sel sibs
      .ok (some r)

mutual
/-- The strict descendants of a node in depth-first pre-order: for each
child, the child itself followed by the child's descendants. -/
def preorderDesc : PNode → List PNode
  | .node _ _ _ kids => preorderForest kids

def preorderForest : PForest → List PNode
  | .nil => []
  | .cons c rest => c :: (preorderDesc c ++ preorderForest rest)
end

mutual
/-- The identities of a node and of all its strict descendants. -/
def allIds : PNode → List Nat
  | .node i _ _ kids => i :: allIdsForest kids

def allIdsForest : PForest → List Nat
  | .nil => []
  | .cons c rest => allIds c ++ allIdsForest rest
end

/-- `m` is a strict descendant of `n`: a child of `n`, or a strict
descendant of a child of `n`. -/
inductive IsStrictDesc : PNode → PNode → Prop where
  | child {n c : PNode} : c ∈ n.kids.toList → IsStrictDesc n c
  | step {n c m : PNode} : c ∈ n.kids.toList → IsStrictDesc c m →
      IsStrictDesc n m

mutual
/-- The tree with everything strictly below depth `d` removed (node
data kept at every remaining node). -/
def truncate : Int → PNode → PNode
  | d, .node i c p kids =>
    .node i c p (if d ≤ 0 then .nil else forestTrunc d kids)

def forestTrunc : Int → PForest → PForest
  | _, .nil => .nil
  | d, .cons h t => .cons (truncate (d - 1) h) (forestTrunc d t)
end

mutual
/-- The strict descendants reachable within `d` edges, in pre-order. -/
def descUpTo : Int → PNode → List PNode
  | d, .node _ _ _ kids => if d ≤ 0 then [] else forestUpTo d kids

def forestUpTo : Int → PForest → List PNode
  | _, .nil => []
  | d, .cons c rest => c :: (descUpTo (d - 1) c ++ forestUpTo d rest)
end

/-- The result of a traversal with each returned node replaced by the
identity of the underlying AUT object it refers to. -/
def resultIds (r : Except Err (List PNode)) : Except Err (List Nat) :=
  r.map (List.map PNode.nid)

/-- The spec's scenario hierarchy: `A → [B, C]`, `B → [D]`. -/
def treeD : PNode := .node 3 "D" [] .nil

def treeB : PNode := .node 1 "B" [] (.cons treeD .nil)

def treeC : PNode := .node 2 "C" [] .nil

def treeA : PNode := .node 0 "A" [] (.cons treeB (.cons treeC .nil))

/-- A node whose class name contains the separator token twice. -/
def doubleSuffixNode : PNode := .node 7 "A_QMLTYPE_1_QMLTYPE_2" [] .nil

/-- Two sibling nodes with identical class name and properties but
distinct underlying objects, under one parent; `twinB` is the second
child. -/
def twinB : PNode := .node 11 "Twin" [("visible", .vBool true)] .nil

def twinC : PNode := .node 12 "Twin" [("visible", .vBool true)] .nil

def twinParent : PNode := .node 10 "P" [] (.cons twinC (.cons twinB .nil))

/-- An ancestor-query selector used as a concrete instance: it matches
nodes whose stripped class name is `A`. -/
def ancSel : Selector := [("type", SelVal.lit (Value.vStr "A"))]

/-- A predicate-function selector value that returns the integer `1`
(never a boolean). -/
def badPred : Value → Value := fun _ => Value.vInt 1

/-- A node with a `height` property, used as a concrete instance for
the predicate-contract checks. -/
def heightNode : PNode := .node 20 "W" [("height", .vInt 50)] .nil

/-- A node carrying a callable object (not a plain function) as a
property value. -/
def handlerNode : PNode := .node 21 "H" [("handler", .vCallable 5)] .nil

theorem isMatching_eq_matchPairs (n : PNode) (sel : Selector) :
    isMatching n sel = matchPairs n sel := by
  cases sel <;> simp [isMatching, matchPairs]

theorem matchPairs_cont (n : PNode) :
    ∀ (pre rest : Selector),
      matchPairs n pre = .ok true →
      matchPairs n (pre ++ rest) = matchPairs n rest
  | [], rest, _ => by simp
  | (key, ev) :: tail, rest, h => by
    by_cases hk : key = "type"
    · cases ev with
      | lit v =>
        by_cases hp : pyEq (.vStr (stripQmlType n.className)) v
        · simp only [matchPairs, List.cons_append, hk, if_true, hp] at h ⊢
          exact matchPairs_cont n tail rest h
        · simp [matchPairs, hk, hp] at h
      | func f => simp [matchPairs, hk] at h
    · cases hl : lookupProp n key with
      | none => simp [matchPairs, hk, hl] at h
      | some attr =>
        cases ev with
        | lit v =>
          by_cases hp : pyEq attr v
          · simp only [matchPairs, List.cons_append, hk, if_false, hl, hp] at h ⊢
            exact matchPairs_cont n tail rest h
          · simp [matchPairs, hk, hl, hp] at h
        | func f =>
          cases hf : f attr with
          | vBool b =>
            cases b with
            | false => simp [matchPairs, hk, hl, hf] at h
            | true =>
              simp only [matchPairs, List.cons_append, hk, if_false, hl, hf,
                if_true] at h ⊢
              exact matchPairs_cont n tail rest h
          | vNone => simp [matchPairs, hk, hl, hf] at h
          | vInt m => simp [matchPairs, hk, hl, hf] at h
          | vStr s => simp [matchPairs, hk, hl, hf] at h
          | vCallable c => simp [matchPairs, hk, hl, hf] at h

theorem matchPairs_congr (n m : PNode) (hc : n.className = m.className)
    (hp : n.props = m.props) :
    ∀ sel : Selector, matchPairs n sel = matchPairs m sel
  | [] => rfl
  | (key, ev) :: tail => by
    simp only [matchPairs, lookupProp, hc, hp,
      matchPairs_congr n m hc hp tail]

theorem matchPairs_type_mismatch (n : PNode) (T : String)
    (hne : stripQmlType n.className ≠ T) :
    ∀ sel : Selector,
      ("type", SelVal.lit (Value.vStr T)) ∈ sel →
      matchPairs n sel ≠ .ok true
  | [], hmem => by simp at hmem
  | (key, ev) :: tail, hmem => by
    rcases List.mem_cons.mp hmem with heq | htail
    · obtain ⟨hkey, hev⟩ := Prod.mk.injEq .. ▸ heq
      subst hkey
      cases hev
      simp only [matchPairs, if_pos rfl, pyEq]
      have : (stripQmlType n.className == T) = false := by
        simpa using hne
      simp [this]
    · by_cases hk : key = "type"
      · cases ev with
        | lit v =>
          by_cases hp : pyEq (.vStr (stripQmlType n.className)) v
          · simp only [matchPairs, hk, if_true, hp]
            exact matchPairs_type_mismatch n T hne tail htail
          · simp [matchPairs, hk, hp]
        | func f => simp [matchPairs, hk]
      · cases hl : lookupProp n key with
        | none => simp [matchPairs, hk, hl]
        | some attr =>
          cases ev with
          | lit v =>
            by_cases hp : pyEq attr v
            · simp only [matchPairs, hk, if_false, hl, hp]
              exact matchPairs_type_mismatch n T hne tail htail
            · simp [matchPairs, hk, hl, hp]
          | func f =>
            cases hf : f attr with
            | vBool b =>
              cases b with
              | false => simp [matchPairs, hk, hl, hf]
              | true =>
                simp only [matchPairs, hk, if_false, hl, hf, if_true]
                exact matchPairs_type_mismatch n T hne tail htail
            | vNone => simp [matchPairs, hk, hl, hf]
            | vInt m => simp [matchPairs, hk, hl, hf]
            | vStr s => simp [matchPairs, hk, hl, hf]
            | vCallable c => simp [matchPairs, hk, hl, hf]

/-- C10: the selector key `type` is resolved through the engine's
runtime class-name capability (`squish.className`, stripped) and never
by reading a node property named `type`: the match outcome is a function
of the class name alone, so a node with any property bag whatsoever --
including one lacking a `type` property, or one whose `type` property
holds an arbitrary value -- matches exactly when its stripped class name
equals the expected string. -/
theorem matcher_type_key_ignores_type_property (i : Nat) (cn : String)
    (props : List (String × Value)) (kids : PForest) (T : String) :
    isMatching (.node i cn props kids) [("type", SelVal.lit (Value.vStr T))] =
      .ok (stripQmlType cn == T) ∧
    isMatching (.node i cn props kids) [("type", SelVal.lit (Value.vStr T))] =
      isMatching (.node i cn [] kids) [("type", SelVal.lit (Value.vStr T))] := by
  have h1 : ∀ p : List (String × Value),
      isMatching (.node i cn p kids) [("type", SelVal.lit (Value.vStr T))] =
        .ok (stripQmlType cn == T) := by
    intro p
    rw [isMatching_eq_matchPairs]
    simp only [matchPairs, if_pos rfl, pyEq, PNode.className]
    cases h : stripQmlType cn == T <;> simp [h, matchPairs]
  exact ⟨h1 props, by rw [h1 props, h1 []]⟩

/-- C8: a selector pair whose non-`type` key names a property the node
lacks makes the matcher return `False` (a normal non-match), regardless
of the remaining pairs (which are short-circuited, even if they would
raise); no error is raised for the missing property. -/
theorem matcher_missing_property_short_circuits (n : PNode)
    (pre post : Selector) (key : String) (ev : SelVal) (hk : key ≠ "type")
    (hv : lookupProp n key = none) (hpre : matchPairs n pre = .ok true) :
    isMatching n (pre ++ (key, ev) :: post) = .ok false := by
  rw [isMatching_eq_matchPairs, matchPairs_cont n pre _ hpre]
  simp [matchPairs, hk, hv]

theorem matcher_missing_property_short_circuits_witness :
    isMatching heightNode ([] ++ ("width", SelVal.func badPred) :: []) =
      .ok false :=
  matcher_missing_property_short_circuits heightNode [] [] "width"
    (SelVal.func badPred) (by decide) (by decide) rfl

/-- C4: a predicate-function selector value that returns a non-boolean
on the fetched property value makes the matcher fail with the
`RuntimeError` of lines 247-251 (the TypeError-equivalent contract
violation), which names the offending key and carries the bad return
value (whose type it reports); the non-boolean result is never coerced
to a truth value, so the matcher returns no boolean at all. -/
theorem matcher_nonbool_predicate_raises (n : PNode) (pre post : Selector)
    (key : String) (f : Value → Value) (v : Value)
    (hk : key ≠ "type") (hv : lookupProp n key = some v)
    (hb : ∀ b : Bool, f v ≠ .vBool b)
    (hpre : matchPairs n pre = .ok true) :
    isMatching n (pre ++ (key, SelVal.func f) :: post) =
      .error (.lambdaNonBool key (f v)) ∧
    ∀ b : Bool, isMatching n (pre ++ (key, SelVal.func f) :: post) ≠ .ok b := by
  have h1 : isMatching n (pre ++ (key, SelVal.func f) :: post) =
      .error (.lambdaNonBool key (f v)) := by
    rw [isMatching_eq_matchPairs, matchPairs_cont n pre _ hpre]
    simp only [matchPairs, hk, if_false, hv]
  exact ⟨h1, fun b => by simp [h1]⟩

theorem matcher_nonbool_predicate_raises_witness :
    isMatching heightNode ([] ++ ("height", SelVal.func badPred) :: []) =
      .error (.lambdaNonBool "height" (badPred (Value.vInt 50))) :=
  (matcher_nonbool_predicate_raises heightNode [] [] "height" badPred
    (Value.vInt 50) (by decide) (by decide)
    (fun b => by simp [badPred]) rfl).1

/-- C9: a selector value that is a callable object but not a plain
function (`isinstance(value, types.FunctionType)` is false: an instance
with `__call__`, a built-in, a partial application) is never invoked by
the matcher; it is compared to the fetched property value with `==`, so
the pair passes exactly when the property value is that very callable
object. -/
theorem matcher_callable_compared_by_equality (n : PNode)
    (pre post : Selector) (key : String) (cid : Nat) (v : Value)
    (hk : key ≠ "type") (hv : lookupProp n key = some v)
    (hpre : matchPairs n pre = .ok true) :
    isMatching n (pre ++ (key, SelVal.lit (Value.vCallable cid)) :: post) =
      (if v = Value.vCallable cid then matchPairs n post else .ok false) ∧
    (pyEq v (Value.vCallable cid) = true ↔ v = Value.vCallable cid) := by
  have hiff : pyEq v (Value.vCallable cid) = true ↔ v = Value.vCallable cid := by
    cases v <;> simp [pyEq]
  constructor
  · rw [isMatching_eq_matchPairs, matchPairs_cont n pre _ hpre]
    simp only [matchPairs, hk, if_false, hv]
    by_cases hveq : v = Value.vCallable cid
    · rw [if_pos (hiff.mpr hveq), if_pos hveq]
    · rw [if_neg (fun hc => hveq (hiff.mp hc)), if_neg hveq]
  · exact hiff

theorem matcher_callable_compared_by_equality_witness :
    isMatching handlerNode ([] ++ ("handler", SelVal.lit (Value.vCallable 5)) :: []) =
      (if Value.vCallable 5 = Value.vCallable 5 then matchPairs handlerNode []
       else .ok false) :=
  (matcher_callable_compared_by_equality handlerNode [] [] "handler" 5
    (Value.vCallable 5) (by decide) (by decide) rfl).1

/-- C5 counterexample: the code strips the generated suffix with
`rsplit("_QMLTYPE_", 1)[0]`, i.e. at the LAST occurrence of the
separator token, not the first.  On a class name containing the token
twice the two disagree: first-occurrence stripping of
`A_QMLTYPE_1_QMLTYPE_2` gives `A`, yet the node does not match
`type = A` (refuting the claim's stated comparison), and it does match
`type = A_QMLTYPE_1`, whose first-occurrence-stripped name it is not. -/
theorem matcher_type_first_occ_counterexample :
    stripQmlTypeFirstOcc "A_QMLTYPE_1_QMLTYPE_2" = "A" ∧
    stripQmlType "A_QMLTYPE_1_QMLTYPE_2" = "A_QMLTYPE_1" ∧
    isMatching doubleSuffixNode [("type", SelVal.lit (Value.vStr "A"))] =
      .ok false ∧
    isMatching doubleSuffixNode
      [("type", SelVal.lit (Value.vStr "A_QMLTYPE_1"))] = .ok true := by
  refine ⟨by decide, by decide, by decide, by decide⟩

/-- C5 (amended): matching a selector key `type` strips the generated
suffix at the LAST occurrence of the separator token (Python
`rsplit` with one split) and compares the stripped name for exact,
case-sensitive string equality; a node whose so-stripped type name
differs from the expected value never matches, regardless of the
selector's other keys. -/
theorem matcher_type_strip_last_occ (n : PNode) (sel : Selector)
    (T : String) :
    (isMatching n [("type", SelVal.lit (Value.vStr T))] = .ok true ↔
      stripQmlType n.className = T) ∧
    (("type", SelVal.lit (Value.vStr T)) ∈ sel →
      stripQmlType n.className ≠ T → isMatching n sel ≠ .ok true) := by
  constructor
  · rw [isMatching_eq_matchPairs]
    by_cases hT : stripQmlType n.className = T
    · simp [matchPairs, pyEq, hT]
    · simp [matchPairs, pyEq, hT, beq_eq_false_iff_ne.mpr hT]
  · intro hmem hne
    rw [isMatching_eq_matchPairs]
    exact matchPairs_type_mismatch n T hne sel hmem

theorem matcher_type_strip_last_occ_witness :
    isMatching treeB ancSel ≠ .ok true :=
  (matcher_type_strip_last_occ treeB ancSel "A").2
    (List.mem_singleton.mpr rfl) (by decide)

theorem except_bind_ok {ε α β : Type} (a : α) (f : α → Except ε β) :
    Bind.bind (Except.ok a) f = f a := rfl

theorem except_bind_error {ε α β : Type} (e : ε) (f : α → Except ε β) :
    Bind.bind (Except.error e : Except ε α) f = Except.error e := rfl

/-- C2: with a non-positive `max_depth` the search returns the empty
tuple immediately: before the selector default is applied, before the
reference is resolved (even an unresolvable symbolic name raises no
error) and before any children are fetched; the recursive core behaves
the same at every node. -/
theorem find_nonpositive_depth_empty (x : ObjOrName) (sel : Option Selector)
    (k : Int) (hk : k ≤ 0) :
    find x sel (some k) = .ok [] ∧
    ∀ (n : PNode) (s : Selector), findRec n s (Depth.fin k) = .ok [] := by
  constructor
  · simp [find, depthNonpos, hk]
  · intro n s
    cases n
    simp [findRec, depthNonpos, hk]

theorem find_nonpositive_depth_empty_witness :
    find (ObjOrName.symbolic none) none (some 0) = .ok [] :=
  (find_nonpositive_depth_empty (ObjOrName.symbolic none) none 0
    (by decide)).1

theorem isMatching_nil_sel (n : PNode) : isMatching n [] = .ok true := rfl

mutual
theorem findRec_inf_preorder : ∀ n : PNode,
    findRec n [] Depth.inf = .ok (preorderDesc n)
  | .node i c p kids => by
    simpa [findRec, depthNonpos, preorderDesc] using findKids_inf_preorder kids

theorem findKids_inf_preorder : ∀ ks : PForest,
    findKids ks [] Depth.inf = .ok (preorderForest ks)
  | .nil => by simp [findKids, preorderForest]
  | .cons c rest => by
    simp [findKids, preorderForest, isMatching_nil_sel, depthPred,
      findRec_inf_preorder c, findKids_inf_preorder rest,
      except_bind_ok]
end

mutual
theorem mem_preorderDesc_iff : ∀ (n m : PNode),
    m ∈ preorderDesc n ↔ IsStrictDesc n m
  | .node i cn pr kids, m => by
    simp only [preorderDesc]
    rw [mem_preorderForest_iff kids m]
    constructor
    · rintro ⟨c, hc, heq | hdesc⟩
      · subst heq
        exact IsStrictDesc.child hc
      · exact IsStrictDesc.step hc hdesc
    · intro h
      cases h with
      | child hc => exact ⟨m, hc, Or.inl rfl⟩
      | step hc hd => exact ⟨_, hc, Or.inr hd⟩

theorem mem_preorderForest_iff : ∀ (ks : PForest) (m : PNode),
    m ∈ preorderForest ks ↔ ∃ c, c ∈ ks.toList ∧ (m = c ∨ IsStrictDesc c m)
  | .nil, m => by simp [preorderForest, PForest.toList]
  | .cons c rest, m => by
    simp only [preorderForest, PForest.toList, List.mem_cons, List.mem_append]
    rw [mem_preorderDesc_iff c m, mem_preorderForest_iff rest m]
    constructor
    · rintro (h0 | hd | ⟨c', h1, h2⟩)
      · exact ⟨c, Or.inl rfl, Or.inl h0⟩
      · exact ⟨c, Or.inl rfl, Or.inr hd⟩
      · exact ⟨c', Or.inr h1, h2⟩
    · rintro ⟨c', (rfl | h1), h2⟩
      · rcases h2 with rfl | hd
        · exact Or.inl rfl
        · exact Or.inr (Or.inl hd)
      · exact Or.inr (Or.inr ⟨c', h1, h2⟩)
end

mutual
theorem sizeOf_lt_of_mem_preorderDesc : ∀ (n m : PNode),
    m ∈ preorderDesc n → sizeOf m < sizeOf n
  | .node i cn pr kids, m, h => by
    have hk := sizeOf_lt_of_mem_preorderForest kids m
      (by simpa [preorderDesc] using h)
    have hn : sizeOf (PNode.node i cn pr kids) =
        1 + sizeOf i + sizeOf cn + sizeOf pr + sizeOf kids := by
      simp
    omega

theorem sizeOf_lt_of_mem_preorderForest : ∀ (ks : PForest) (m : PNode),
    m ∈ preorderForest ks → sizeOf m < sizeOf ks
  | .nil, m, h => by simp [preorderForest] at h
  | .cons c rest, m, h => by
    have hs : sizeOf (PForest.cons c rest) = 1 + sizeOf c + sizeOf rest := by
      simp
    rcases (by simpa [preorderForest] using h :
        m = c ∨ m ∈ preorderDesc c ∨ m ∈ preorderForest rest) with rfl | h3 | h3
    · omega
    · have := sizeOf_lt_of_mem_preorderDesc c m h3
      omega
    · have := sizeOf_lt_of_mem_preorderForest rest m h3
      omega
end

theorem allIds_eq (n : PNode) : allIds n = n.nid :: allIdsForest n.kids := by
  cases n
  rfl

mutual
theorem map_nid_preorderDesc : ∀ n : PNode,
    (preorderDesc n).map PNode.nid = allIdsForest n.kids
  | .node i cn pr kids => by
    simp [preorderDesc, PNode.kids, map_nid_preorderForest kids]

theorem map_nid_preorderForest : ∀ ks : PForest,
    (preorderForest ks).map PNode.nid = allIdsForest ks
  | .nil => by simp [preorderForest, allIdsForest]
  | .cons c rest => by
    simp [preorderForest, allIdsForest, allIds_eq,
      map_nid_preorderDesc c, map_nid_preorderForest rest]
end

/-- C1: with an explicit empty selector and no depth bound, `find`
returns exactly the strict descendants of the root in depth-first
pre-order: membership in the result is strict descent, the root itself
is never in the result, and (as long as distinct nodes of the hierarchy
are distinct objects) each descendant occurs exactly once. -/
theorem find_unbounded_returns_preorder (root : PNode) :
    find (.ref root) (some []) none = .ok (preorderDesc root) ∧
    (∀ m : PNode, m ∈ preorderDesc root ↔ IsStrictDesc root m) ∧
    root ∉ preorderDesc root ∧
    ((allIds root).Nodup → ((preorderDesc root).map PNode.nid).Nodup) := by
  refine ⟨?_, fun m => mem_preorderDesc_iff root m, ?_, ?_⟩
  · cases root with
    | node i cn pr kids =>
      simp [find, depthNonpos, getObjectReference, PNode.kids, preorderDesc,
        findKids_inf_preorder kids, except_bind_ok]
  · intro h
    exact absurd (sizeOf_lt_of_mem_preorderDesc root root h) (lt_irrefl _)
  · intro hnd
    rw [map_nid_preorderDesc root]
    have h2 := allIds_eq root ▸ hnd
    exact (List.nodup_cons.mp h2).2

theorem find_unbounded_returns_preorder_witness :
    ((preorderDesc treeA).map PNode.nid).Nodup :=
  (find_unbounded_returns_preorder treeA).2.2.2 (by decide)

theorem truncate_nid (d : Int) (n : PNode) : (truncate d n).nid = n.nid := by
  cases n
  simp [truncate, PNode.nid]

theorem truncate_className (d : Int) (n : PNode) :
    (truncate d n).className = n.className := by
  cases n
  simp [truncate, PNode.className]

theorem truncate_props (d : Int) (n : PNode) :
    (truncate d n).props = n.props := by
  cases n
  simp [truncate, PNode.props]

theorem isMatching_truncate (d : Int) (n : PNode) (sel : Selector) :
    isMatching (truncate d n) sel = isMatching n sel := by
  rw [isMatching_eq_matchPairs, isMatching_eq_matchPairs]
  exact matchPairs_congr _ _ (truncate_className d n) (truncate_props d n) sel

theorem resultIds_cases (A B : Except Err (List PNode))
    (h : resultIds A = resultIds B) :
    (∃ e, A = .error e ∧ B = .error e) ∨
    (∃ la lb, A = .ok la ∧ B = .ok lb ∧
      la.map PNode.nid = lb.map PNode.nid) := by
  cases A with
  | error a =>
    cases B with
    | error b =>
      simp [resultIds, Except.map] at h
      exact Or.inl ⟨a, rfl, by rw [h]⟩
    | ok lb => simp [resultIds, Except.map] at h
  | ok la =>
    cases B with
    | error b => simp [resultIds, Except.map] at h
    | ok lb =>
      simp only [resultIds, Except.map] at h
      exact Or.inr ⟨la, lb, rfl, rfl, by injection h⟩

mutual
theorem findRec_truncate_ids : ∀ (n : PNode) (sel : Selector) (d : Int),
    resultIds (findRec n sel (Depth.fin d)) =
      resultIds (findRec (truncate d n) sel (Depth.fin d))
  | .node i cn pr kids, sel, d => by
    by_cases hd : d ≤ 0
    · simp [findRec, truncate, depthNonpos, hd]
    · have hik := findKids_truncate_ids kids sel d
      simpa [findRec, truncate, depthNonpos, hd] using hik

theorem findKids_truncate_ids : ∀ (ks : PForest) (sel : Selector) (d : Int),
    resultIds (findKids ks sel (Depth.fin d)) =
      resultIds (findKids (forestTrunc d ks) sel (Depth.fin d))
  | .nil, sel, d => by simp [findKids, forestTrunc]
  | .cons c rest, sel, d => by
    simp only [findKids, forestTrunc, depthPred]
    rw [isMatching_truncate]
    cases hm : isMatching c sel with
    | error e => simp [except_bind_error, resultIds, Except.map]
    | ok m =>
      simp only [except_bind_ok]
      rcases resultIds_cases _ _ (findRec_truncate_ids c sel (d - 1)) with
        ⟨e, he1, he2⟩ | ⟨la, lb, hl1, hl2, hmap⟩
      · rw [he1, he2]
        simp [except_bind_error, resultIds, Except.map]
      · rw [hl1, hl2]
        simp only [except_bind_ok]
        rcases resultIds_cases _ _ (findKids_truncate_ids rest sel d) with
          ⟨e, he1, he2⟩ | ⟨ta, tb, ht1, ht2, htmap⟩
        · rw [he1, he2]
          simp [except_bind_error, resultIds, Except.map]
        · rw [ht1, ht2]
          simp only [except_bind_ok, resultIds, Except.map]
          cases m with
          | false => simp [hmap, htmap]
          | true => simp [hmap, htmap, truncate_nid]
end

mutual
theorem findRec_mem_descUpTo : ∀ (n : PNode) (sel : Selector) (d : Int)
    (r : List PNode), findRec n sel (Depth.fin d) = .ok r →
    ∀ m ∈ r, m ∈ descUpTo d n
  | .node i cn pr kids, sel, d, r, h => by
    by_cases hd : d ≤ 0
    · simp [findRec, depthNonpos, hd] at h
      subst h
      simp
    · simp only [findRec, depthNonpos] at h
      rw [if_neg (by simpa using hd)] at h
      intro m hm
      simp only [descUpTo]
      rw [if_neg hd]
      exact findKids_mem_forestUpTo kids sel d r h m hm

theorem findKids_mem_forestUpTo : ∀ (ks : PForest) (sel : Selector) (d : Int)
    (r : List PNode), findKids ks sel (Depth.fin d) = .ok r →
    ∀ m ∈ r, m ∈ forestUpTo d ks
  | .nil, sel, d, r, h => by
    simp only [findKids] at h
    have hr := Except.ok.inj h
    subst hr
    simp
  | .cons c rest, sel, d, r, h => by
    simp only [findKids, depthPred] at h
    cases hm : isMatching c sel with
    | error e =>
      rw [hm, except_bind_error] at h
      exact absurd h (by simp)
    | ok m =>
      rw [hm, except_bind_ok] at h
      cases hs : findRec c sel (Depth.fin (d - 1)) with
      | error e =>
        rw [hs, except_bind_error] at h
        exact absurd h (by simp)
      | ok sub =>
        rw [hs, except_bind_ok] at h
        cases ht : findKids rest sel (Depth.fin d) with
        | error e =>
          rw [ht, except_bind_error] at h
          exact absurd h (by simp)
        | ok tail =>
          rw [ht, except_bind_ok] at h
          have hr := Except.ok.inj h
          subst hr
          intro x hx
          simp only [forestUpTo, List.mem_cons, List.mem_append]
          rcases List.mem_append.mp hx with hx1 | hx2
          · rcases List.mem_append.mp hx1 with hx0 | hxsub
            · left
              cases m with
              | false => simp at hx0
              | true => simpa using hx0
            · right
              left
              exact findRec_mem_descUpTo c sel (d - 1) sub hs x hxsub
          · right
            right
            exact findKids_mem_forestUpTo rest sel d tail ht x hx2
end

/-- C3: with a finite `max_depth`, the search is insensitive to
everything strictly below the depth limit (the returned references and
any raised error are unchanged when the tree is truncated at the limit,
so children of nodes at the limit are never fetched), every returned
node lies within `d` edges of the root, and on the spec's scenario
hierarchy `find(A, {}, max_depth=1)` returns exactly `[B, C]` while the
unbounded search returns `[B, D, C]` in pre-order. -/
theorem find_depth_limit_prunes :
    (∀ (n : PNode) (sel : Selector) (d : Int),
      resultIds (findRec n sel (Depth.fin d)) =
        resultIds (findRec (truncate d n) sel (Depth.fin d))) ∧
    (∀ (n : PNode) (sel : Selector) (d : Int) (r : List PNode),
      findRec n sel (Depth.fin d) = .ok r → ∀ m ∈ r, m ∈ descUpTo d n) ∧
    find (.ref treeA) (some []) (some 1) = .ok [treeB, treeC] ∧
    find (.ref treeA) (some []) none = .ok [treeB, treeD, treeC] :=
  ⟨findRec_truncate_ids, findRec_mem_descUpTo, by decide, by decide⟩

theorem find_depth_limit_prunes_witness :
    treeB ∈ descUpTo 1 treeA :=
  find_depth_limit_prunes.2.1 treeA [] 1 [treeB, treeC] (by decide) treeB
    (by decide)

theorem find_ancestor_chain (sel : Selector) :
    ∀ (anc : List PNode) (r : Option PNode),
      find_ancestor anc sel = .ok r →
      (r = none ↔ ∀ p ∈ anc, isMatching p sel = .ok false) ∧
      (∀ p : PNode, r = some p → ∃ pre suf, anc = pre ++ p :: suf ∧
        (∀ q ∈ pre, isMatching q sel = .ok false) ∧
        isMatching p sel = .ok true) := by
  intro anc
  induction anc with
  | nil =>
    intro r h
    simp only [find_ancestor] at h
    have hr := Except.ok.inj h
    subst hr
    constructor
    · simp
    · intro p hp
      simp at hp
  | cons p rest ih =>
    intro r h
    simp only [find_ancestor] at h
    cases hm : isMatching p sel with
    | error e =>
      rw [hm, except_bind_error] at h
      exact absurd h (by simp)
    | ok m =>
      rw [hm, except_bind_ok] at h
      cases m with
      | true =>
        simp only [if_true] at h
        have hr := Except.ok.inj h
        subst hr
        constructor
        · constructor
          · intro hc
            simp at hc
          · intro hall
            have h1 := hall p (by simp)
            rw [hm] at h1
            simp at h1
        · intro p' hp'
          have hpp : p = p' := Option.some.inj hp'
          subst hpp
          exact ⟨[], rest, rfl, by simp, hm⟩
      | false =>
        simp only [if_false, Bool.false_eq_true] at h
        obtain ⟨ih1, ih2⟩ := ih r h
        constructor
        · rw [ih1]
          constructor
          · intro hall q hq
            rcases List.mem_cons.mp hq with heq | hq2
            · subst heq
              exact hm
            · exact hall q hq2
          · intro hall q hq
            exact hall q (List.mem_cons_of_mem _ hq)
        · intro p' hp'
          obtain ⟨pre, suf, heq, hpre, hmp⟩ := ih2 p' hp'
          refine ⟨p :: pre, suf, by rw [heq, List.cons_append], ?_, hmp⟩
          intro q hq
          rcases List.mem_cons.mp hq with heq2 | hq2
          · subst heq2
            exact hm
          · exact hpre q hq2

/-- C7: an error-free ancestor search returns `None` exactly when no
strict ancestor of the starting node matches the selector; a returned
node is always the nearest matching element of the ancestor chain
(every nearer ancestor failed the match), and in particular the result
is always a member of the chain, so the starting node -- which is not
its own ancestor -- is never returned. -/
theorem find_ancestor_none_iff_no_match (anc : List PNode) (sel : Selector)
    (r : Option PNode) (h : find_ancestor anc sel = .ok r) :
    (r = none ↔ ∀ p ∈ anc, isMatching p sel = .ok false) ∧
    (∀ p : PNode, r = some p → ∃ pre suf, anc = pre ++ p :: suf ∧
      (∀ q ∈ pre, isMatching q sel = .ok false) ∧
      isMatching p sel = .ok true) ∧
    (∀ q : PNode, q ∉ anc → r ≠ some q) := by
  obtain ⟨h1, h2⟩ := find_ancestor_chain sel anc r h
  refine ⟨h1, h2, ?_⟩
  intro q hq hrq
  obtain ⟨pre, suf, heq, hpre, hmq⟩ := h2 q hrq
  apply hq
  rw [heq]
  exact List.mem_append.mpr (Or.inr (List.mem_cons_self q suf))

theorem find_ancestor_none_iff_no_match_witness :
    (some treeA : Option PNode) ≠ some treeD :=
  (find_ancestor_none_iff_no_match [treeB, treeA] ancSel (some treeA)
    (by decide)).2.2 treeD (by decide)

theorem removeFirst_spec (x : PNode) :
    ∀ l : List PNode, x ∈ l → (l.map PNode.nid).Nodup →
      ∃ l', removeFirst x l = some l' ∧
        (∀ m ∈ l', m.nid ≠ x.nid) ∧
        (∀ c ∈ l, c.nid ≠ x.nid → c ∈ l')
  | [], hx, _ => absurd hx (List.not_mem_nil x)
  | c :: rest, hx, hnd => by
    have hnd' : c.nid ∉ rest.map PNode.nid ∧ (rest.map PNode.nid).Nodup := by
      simpa using hnd
    by_cases hre : refEq c x
    · have hcx : c.nid = x.nid := by simpa [refEq] using hre
      refine ⟨rest, by simp [removeFirst, hre], ?_, ?_⟩
      · intro m hm hmn
        exact hnd'.1 (hcx ▸ hmn ▸ List.mem_map_of_mem PNode.nid hm)
      · intro c' hc' hcn
        rcases List.mem_cons.mp hc' with heq | h2
        · subst heq
          exact absurd hcx hcn
        · exact h2
    · have hcx : c.nid ≠ x.nid := by simpa [refEq] using hre
      have hxrest : x ∈ rest := by
        rcases List.mem_cons.mp hx with heq | h2
        · subst heq
          exact absurd (by simp [refEq]) hre
        · exact h2
      obtain ⟨l', hrm, hall, hkeep⟩ := removeFirst_spec x rest hxrest hnd'.2
      refine ⟨c :: l', by simp [removeFirst, hre, hrm], ?_, ?_⟩
      · intro m hm
        rcases List.mem_cons.mp hm with heq | h2
        · subst heq
          exact hcx
        · exact hall m h2
      · intro c' hc' hcn
        rcases List.mem_cons.mp hc' with heq | h2
        · subst heq
          exact List.mem_cons_self _ _
        · exact List.mem_cons_of_mem _ (hkeep c' h2 hcn)

theorem filterMatching_nil_sel : ∀ l : List PNode,
    filterMatching [] l = .ok l
  | [] => rfl
  | c :: rest => by
    simp [filterMatching, isMatching_nil_sel, except_bind_ok,
      filterMatching_nil_sel rest]

/-- C6: `siblings` removes the starting node from the parent's child
sequence by reference identity (Squish object references compare `==`
exactly when they refer to the same underlying object), so with the
empty selector the result never contains the starting node, while every
other child is kept -- including a distinct sibling whose class name
and properties are identical to the starting node's. -/
theorem siblings_removes_by_reference_identity (node par : PNode)
    (hmem : node ∈ par.kids.toList)
    (hids : (par.kids.toList.map PNode.nid).Nodup) :
    ∃ r, siblings node (some par) [] = .ok (some r) ∧
      (∀ m ∈ r, m.nid ≠ node.nid) ∧
      (∀ c ∈ par.kids.toList, c.nid ≠ node.nid → c ∈ r) := by
  obtain ⟨l', hrm, hall, hkeep⟩ :=
    removeFirst_spec node par.kids.toList hmem hids
  refine ⟨l', ?_, hall, hkeep⟩
  simp [siblings, hrm, filterMatching_nil_sel, except_bind_ok]

theorem siblings_removes_by_reference_identity_witness :
    ∃ r, siblings twinB (some twinParent) [] = .ok (some r) ∧
      (∀ m ∈ r, m.nid ≠ twinB.nid) ∧
      (∀ c ∈ twinParent.kids.toList, c.nid ≠ twinB.nid → c ∈ r) :=
  siblings_removes_by_reference_identity twinB twinParent (by decide)
    (by decide)
